import Mathlib

/-!
Verification of the Windows process-management module
(`src-tauri/src/windows/process.rs` and the non-Windows no-op module in
`src-tauri/src/windows/mod.rs`).

The external commands (`taskkill`, `wmic`, `tasklist`, `powershell`) are
modelled by a world record giving, for each invocation, either a spawn
failure (the `Err` of `tokio::process::Command::output`) or a `CmdOutput`
holding the exit status and the captured streams.  All parsing helpers
(`str::lines`, `str::split(',')`, `str::trim`, `str::trim_matches('"')`,
`str::parse::<u32>`, `str::contains`) are embedded as executable functions
over `List Char`.
-/

/-- Rust `<[Char] as PartialEq>::starts_with`: is the first list a prefix of the second. -/
def isPrefixL : List Char → List Char → Bool
  | [], _ => true
  | _ :: _, [] => false
  | a :: as, b :: bs => a == b && isPrefixL as bs

/-- Substring test on character lists, used to embed Rust `str::contains`. -/
def containsSubL (pat : List Char) : List Char → Bool
  | [] => isPrefixL pat []
  | c :: rest => isPrefixL pat (c :: rest) || containsSubL pat rest

/-- Rust `str::contains(pat)`: `pat` occurs as a contiguous substring of `s`. -/
def containsSub (s pat : String) : Bool :=
  containsSubL pat.data s.data

/-- Rust `str::trim`: drop whitespace from both ends. -/
def trimChars (l : List Char) : List Char :=
  ((l.dropWhile Char.isWhitespace).reverse.dropWhile Char.isWhitespace).reverse

/-- Rust `str::trim_matches('"')`: drop double quotes from both ends. -/
def trimQuotes (l : List Char) : List Char :=
  ((l.dropWhile (· = '"')).reverse.dropWhile (· = '"')).reverse

/-- Helper for `splitComma`; the accumulator holds the current field reversed. -/
def splitCommaAux : List Char → List Char → List (List Char)
  | [], acc => [acc.reverse]
  | c :: rest, acc =>
    if c = ',' then acc.reverse :: splitCommaAux rest []
    else splitCommaAux rest (c :: acc)

/-- Rust `str::split(',')` collected into a vector. -/
def splitComma (l : List Char) : List (List Char) :=
  splitCommaAux l []

/-- Helper for `rustLinesL`; the accumulator holds the current line reversed.
A line terminator is a bare newline or a carriage return followed by a
newline; a final segment without a terminator is kept verbatim. -/
def linesAux : List Char → List Char → List (List Char)
  | [], [] => []
  | [], acc => [acc.reverse]
  | c :: rest, acc =>
    if c = '\n' then
      (match acc with
       | '\r' :: acc2 => acc2.reverse
       | _ => acc.reverse) :: linesAux rest []
    else
      linesAux rest (c :: acc)

/-- Rust `str::lines` on the underlying character list. -/
def rustLinesL (s : List Char) : List (List Char) :=
  linesAux s []

/-- Rust `str::parse::<u32>`: an optional leading plus sign, then one or
more ASCII digits, rejecting values that overflow 32 bits. -/
def parseU32 (l : List Char) : Option Nat :=
  let digits := match l with
    | '+' :: rest => rest
    | _ => l
  if digits = [] then none
  else if digits.all (fun c => c.isDigit) then
    let v := digits.foldl (fun a c => a * 10 + (c.toNat - 48)) 0
    if v < 4294967296 then some v else none
  else none

/-- Captured result of one external command that ran to completion:
its exit-status success bit and both output streams. -/
structure CmdOutput where
  success : Bool
  stdout : String
  stderr : String
deriving DecidableEq

/-- One line of `tasklist /FO CSV /NH` output, parsed as in
`list_processes_by_name`: skip blank lines, require at least two
comma-separated fields, strip quotes then whitespace from the second
field and parse it as a pid. -/
def parsePidLine (line : List Char) : Option Nat :=
  if trimChars line = [] then none
  else
    let parts := splitComma line
    match parts.get? 1 with
    | some p => parseU32 (trimChars (trimQuotes p))
    | none => none

/-- One line of `wmic process get ProcessId,ParentProcessId /format:csv`
output, parsed as in `get_process_parent_map`: require at least three
comma-separated fields (Node,ParentProcessId,ProcessId), parse fields 1
and 2 as integers, and keep the pair only when both are positive.  The
result pair is `(pid, parent_pid)`. -/
def parseMapLine (line : List Char) : Option (Nat × Nat) :=
  let parts := splitComma line
  match parts.get? 1, parts.get? 2 with
  | some p1, some p2 =>
    match parseU32 (trimChars p1), parseU32 (trimChars p2) with
    | some parent_pid, some pid2 =>
      if parent_pid > 0 && pid2 > 0 then some (pid2, parent_pid) else none
    | _, _ => none
  | _, _ => none

/-- `HashMap::insert` on an association list keyed by pid: replace the
binding if the key is present, otherwise append it. -/
def hmInsert {α : Type} (m : List (Nat × α)) (k : Nat) (v : α) : List (Nat × α) :=
  if m.any (fun e => e.1 == k) then
    m.map (fun e => if e.1 == k then (k, v) else e)
  else m ++ [(k, v)]

/-- `HashMap::get` on an association list keyed by pid. -/
def hmGet {α : Type} (m : List (Nat × α)) (k : Nat) : Option α :=
  match m.find? (fun e => e.1 == k) with
  | some e => some e.2
  | none => none

/-- Body of `get_process_parent_map`'s parsing loop: skip the first two
lines of the raw listing, then fold the per-line parser over the rest,
inserting each well-formed `(pid, parent_pid)` record. -/
def parseParentMap (s : List Char) : List (Nat × Nat) :=
  ((rustLinesL s).drop 2).foldl
    (fun m line =>
      match parseMapLine line with
      | some pr => hmInsert m pr.1 pr.2
      | none => m)
    []

/-- World for the kill orchestration: the one `wmic` snapshot invocation,
and for every pid the outcome of the graceful (`taskkill /PID`) and
forced (`taskkill /F /PID`) invocations.  An `Except.error` value is a
spawn failure of the command itself. -/
structure SysWorld where
  wmic : Except String CmdOutput
  graceful : Nat → Except String CmdOutput
  forced : Nat → Except String CmdOutput

/-- World for `get_process_info`: the unfiltered `tasklist` invocation,
the `wmic` snapshot, and for every pid the outcome of the PowerShell
elevation query. -/
structure InfoWorld where
  tasklist : Except String CmdOutput
  wmic : Except String CmdOutput
  elev : Nat → Except String CmdOutput

/-- Mirror of the `ProcessInfo` struct. -/
structure ProcessInfo where
  pid : Nat
  name : String
  parent_pid : Option Nat
  is_elevated : Bool
deriving DecidableEq

/-- Anyhow `context`: prefix an error message, pass successes through. -/
def addContext {α : Type} (ctx : String) : Except String α → Except String α
  | .error e => .error (ctx ++ ": " ++ e)
  | .ok v => .ok v

/-- Mirror of `get_process_parent_map`: spawn failure and non-success exit
are errors; otherwise the raw CSV listing is parsed leniently. -/
def get_process_parent_map (run : Except String CmdOutput) :
    Except String (List (Nat × Nat)) :=
  match run with
  | .error e => .error ( "Failed to execute wmic command: " ++ e)
  | .ok out =>
    if out.success then .ok (parseParentMap out.stdout.data)
    else .error ( "wmic command failed: " ++ out.stderr)

/-- The pids pushed when `current` is visited: every map record whose
parent field equals `current` and whose pid is not yet visited, in map
order. -/
def pushList (map : List (Nat × Nat)) (current : Nat) (visited : List Nat) :
    List Nat :=
  (map.filter (fun e => decide (e.2 = current ∧ e.1 ∉ visited))).map Prod.fst

/-- The worklist loop of `get_child_processes_recursive`, with explicit
fuel standing for the number of loop iterations still allowed.  The
worklist is a stack whose head is the top (Rust `Vec::pop` takes the
last-pushed element); `acc` collects the visit order. -/
def expandLoop (map : List (Nat × Nat)) :
    Nat → List Nat → List Nat → List Nat → Option (List Nat)
  | 0, _, _, _ => none
  | _ + 1, [], _, acc => some acc
  | fuel + 1, current :: rest, visited, acc =>
    if current ∈ visited then
      expandLoop map fuel rest visited acc
    else
      expandLoop map fuel
        ((pushList map current (current :: visited)).foldl (fun s p => p :: s) rest)
        (current :: visited)
        (acc ++ [current])

/-- Iteration budget that provably suffices for `expandLoop` (proved below). -/
def expandFuel (map : List (Nat × Nat)) : Nat :=
  (map.length + 1) * (map.length + 1) + 2

/-- The descendant expansion of `get_child_processes_recursive`, given the
already-built parent map (spec name `expand_descendants`). -/
def expand_descendants (map : List (Nat × Nat)) (root : Nat) : Option (List Nat) :=
  expandLoop map (expandFuel map) [root] [] []

/-- Mirror of `get_child_processes_recursive`: build the parent map (its
failure is wrapped with context), then run the cycle-guarded traversal. -/
def get_child_processes_recursive (run : Except String CmdOutput) (parent_pid : Nat) :
    Except String (List Nat) :=
  match get_process_parent_map run with
  | .error e => .error ( "Failed to get process parent relationships: " ++ e)
  | .ok process_map =>
    match expand_descendants process_map parent_pid with
    | some l => .ok l
    | none => .error ( "loop budget exhausted")

/-- The "process was already gone" signature checked against the stderr of
the forced `taskkill`. -/
def isNotFoundSig (s : String) : Bool :=
  containsSub s ( "not found") || containsSub s ( "No tasks")

/-- Mirror of `kill_single_process`: graceful `taskkill` first; on
non-success, forced `taskkill /F`; a forced failure whose stderr matches
the not-found signature is `Ok false`, any other forced failure is an
error carrying the stderr text; spawn failures propagate with context. -/
def kill_single_process (w : SysWorld) (pid : Nat) : Except String Bool :=
  match w.graceful pid with
  | .error e => .error ( "Failed to execute taskkill command: " ++ e)
  | .ok out1 =>
    if out1.success then .ok true
    else
      match w.forced pid with
      | .error e => .error ( "Failed to execute forced taskkill command: " ++ e)
      | .ok out2 =>
        if out2.success then .ok true
        else if isNotFoundSig out2.stderr then .ok false
        else .error ( "Failed to terminate process " ++ Nat.repr pid ++ ": " ++ out2.stderr)

/-- Mirror of `kill_process_tree`.  The first component is the returned
`Result<bool>`; the second is the sequence of pids passed to
`kill_single_process`, in call order (children first, root last).  Child
outcomes are discarded exactly as in the source (`let _ = ...`). -/
def kill_process_tree (w : SysWorld) (pid : Nat) : Except String Bool × List Nat :=
  match get_child_processes_recursive w.wmic pid with
  | .error e => (.error ( "Failed to get child processes: " ++ e), [])
  | .ok child_pids =>
    (addContext ( "Failed to kill root process " ++ Nat.repr pid)
       (kill_single_process w pid),
     child_pids.filter (fun c => c != pid) ++ [pid])

/-- Mirror of `list_processes_by_name`: spawn failure and non-success exit
are errors; otherwise every line of the CSV listing that parses to a pid
is collected, malformed lines being skipped. -/
def list_processes_by_name (run : Except String CmdOutput) (_name : String) :
    Except String (List Nat) :=
  match run with
  | .error e => .error ( "Failed to execute tasklist command: " ++ e)
  | .ok out =>
    if out.success then .ok ((rustLinesL out.stdout.data).filterMap parsePidLine)
    else .error ( "tasklist command failed: " ++ out.stderr)

/-- Mirror of `is_process_elevated`: a spawn failure of PowerShell
propagates with context; a non-success exit yields `Ok false`; otherwise
the trimmed, lowercased stdout is compared with the string true. -/
def is_process_elevated (run : Except String CmdOutput) (_pid : Nat) :
    Except String Bool :=
  match run with
  | .error e => .error ( "Failed to execute PowerShell command: " ++ e)
  | .ok out =>
    if out.success then
      .ok ((trimChars out.stdout.data).map Char.toLower == ( "true").data)
    else .ok false

/-- The pid-to-name map built by `get_process_info` from the unfiltered
`tasklist` listing, keeping only lines whose pid belongs to the request. -/
def buildPidToName (s : List Char) (pid_set : List Nat) : List (Nat × String) :=
  (rustLinesL s).foldl
    (fun m line =>
      if trimChars line = [] then m
      else
        let parts := splitComma line
        match parts.get? 0, parts.get? 1 with
        | some p0, some p1 =>
          (match parseU32 (trimChars (trimQuotes p1)) with
           | some pid =>
             if pid_set.contains pid then
               hmInsert m pid (String.mk (trimChars (trimQuotes p0)))
             else m
           | none => m)
        | _, _ => m)
    []

/-- Mirror of `get_process_info`: one `ProcessInfo` per requested pid, in
request order; a pid missing from the listing gets the placeholder name,
and an erroring elevation query defaults to not elevated. -/
def get_process_info (w : InfoWorld) (pids : List Nat) :
    Except String (List ProcessInfo) :=
  match w.tasklist with
  | .error e => .error ( "Failed to execute tasklist command: " ++ e)
  | .ok out =>
    if out.success then
      match get_process_parent_map w.wmic with
      | .error e => .error ( "Failed to get process parent relationships: " ++ e)
      | .ok parent_map =>
        .ok (pids.map (fun pid =>
          { pid := pid
            name := (hmGet (buildPidToName out.stdout.data pids) pid).getD
              ( "PID-" ++ Nat.repr pid)
            parent_pid := hmGet parent_map pid
            is_elevated :=
              match is_process_elevated (w.elev pid) pid with
              | .ok b => b
              | .error _ => false }))
    else .error ( "tasklist command failed: " ++ out.stderr)

namespace nonwindows

/-- Mirror of the non-Windows `kill_process_tree` no-op. -/
def kill_process_tree (_pid : Nat) : Except String Bool :=
  .ok false

/-- Mirror of the non-Windows `list_processes_by_name` no-op. -/
def list_processes_by_name (_name : String) : Except String (List Nat) :=
  .ok []

/-- Mirror of the non-Windows `is_process_elevated` no-op. -/
def is_process_elevated (_pid : Nat) : Except String Bool :=
  .ok false

end nonwindows

/-- Reachability in the parent map: `p` is reachable from `root` by zero
or more parent-to-child hops, a hop being a map record `(child, parent)`. -/
inductive Reachable (map : List (Nat × Nat)) (root : Nat) : Nat → Prop where
  | refl : Reachable map root root
  | step {q p : Nat} : Reachable map root q → (p, q) ∈ map → Reachable map root p

/-- The pids recorded in the parent map (left components). -/
def keysOf (map : List (Nat × Nat)) : List Nat :=
  map.map Prod.fst

/-- Every pid the traversal can ever enqueue: the root plus the map keys. -/
def cand (map : List (Nat × Nat)) (root : Nat) : Finset Nat :=
  insert root (keysOf map).toFinset

/-- Termination measure for `expandLoop`: worklist length plus a weighted
count of the candidates not yet visited. -/
def meas (map : List (Nat × Nat)) (root : Nat) (tp visited : List Nat) : Nat :=
  tp.length + (map.length + 1) * ((cand map root \ visited.toFinset).card)

/-- Membership in a fold that pushes every element of `l` onto `init`. -/
theorem mem_foldl_cons (l : List Nat) (init : List Nat) (x : Nat) :
    x ∈ l.foldl (fun s p => p :: s) init ↔ x ∈ l ∨ x ∈ init := by
  induction l generalizing init with
  | nil => simp
  | cons a as ihl =>
    simp only [List.foldl_cons, ihl, List.mem_cons]
    tauto

/-- Length of a fold that pushes every element of `l` onto `init`. -/
theorem length_foldl_cons (l : List Nat) (init : List Nat) :
    (l.foldl (fun s p => p :: s) init).length = l.length + init.length := by
  induction l generalizing init with
  | nil => simp
  | cons a as ihl =>
    simp only [List.foldl_cons, ihl, List.length_cons]
    omega

/-- Characterisation of the pids pushed at a visit. -/
theorem mem_pushList {map : List (Nat × Nat)} {current : Nat} {visited : List Nat}
    {p : Nat} :
    p ∈ pushList map current visited ↔ (p, current) ∈ map ∧ p ∉ visited := by
  simp only [pushList, List.mem_map, List.mem_filter, decide_eq_true_eq]
  constructor
  · rintro ⟨⟨a, b⟩, ⟨hm, hc, hv⟩, rfl⟩
    simp only at hc hv
    subst hc
    exact ⟨hm, hv⟩
  · rintro ⟨hm, hv⟩
    exact ⟨(p, current), ⟨hm, rfl, hv⟩, rfl⟩

/-- A visit pushes at most one pid per map record. -/
theorem pushList_length_le (map : List (Nat × Nat)) (current : Nat)
    (visited : List Nat) :
    (pushList map current visited).length ≤ map.length := by
  simp only [pushList, List.length_map]
  exact List.length_filter_le _ _

/-- A visited set that contains the root and is closed under the child
relation contains every reachable pid. -/
theorem reachable_mem_of_closed (map : List (Nat × Nat)) (root : Nat)
    (visited : List Nat) (hroot : root ∈ visited)
    (hclosed : ∀ v ∈ visited, ∀ c : Nat, (c, v) ∈ map → c ∈ visited) :
    ∀ p : Nat, Reachable map root p → p ∈ visited := by
  intro p hp
  induction hp with
  | refl => exact hroot
  | step hq hmem ih => exact hclosed _ ih _ hmem

/-- Every entry of `hmInsert m k v` is an old entry or the new binding. -/
theorem mem_hmInsert {α : Type} {m : List (Nat × α)} {k : Nat} {v : α}
    {x : Nat × α} (hx : x ∈ hmInsert m k v) : x ∈ m ∨ x = (k, v) := by
  unfold hmInsert at hx
  split at hx
  · rcases List.mem_map.mp hx with ⟨e, he, heq⟩
    by_cases hek : (e.1 == k) = true
    · simp only [hek, if_true] at heq
      right; exact heq.symm
    · simp only [hek, if_false, Bool.false_eq_true] at heq
      left; exact heq ▸ he
  · rcases List.mem_append.mp hx with h | h
    · left; exact h
    · right; simpa using h

/-- Master invariant lemma for `expandLoop`: with enough fuel relative to
the measure, the loop returns a duplicate-free list whose members are
exactly the pids reachable from the root. -/
theorem expandLoop_master (map : List (Nat × Nat)) (root : Nat) :
    ∀ (fuel : Nat) (tp visited acc : List Nat),
      meas map root tp visited < fuel →
      (∀ p ∈ tp, p ∈ cand map root) →
      (∀ p ∈ tp, Reachable map root p) →
      (∀ v ∈ visited, Reachable map root v) →
      (∀ x : Nat, x ∈ acc ↔ x ∈ visited) →
      List.Nodup acc →
      (∀ v ∈ visited, ∀ c : Nat, (c, v) ∈ map → c ∈ visited ∨ c ∈ tp) →
      (root ∈ visited ∨ root ∈ tp) →
      ∃ res, expandLoop map fuel tp visited acc = some res ∧ List.Nodup res ∧
        ∀ p : Nat, p ∈ res ↔ Reachable map root p := by
  intro fuel
  induction fuel with
  | zero =>
    intro tp visited acc hm _ _ _ _ _ _ _
    exact absurd hm (Nat.not_lt_zero _)
  | succ fuel ih =>
    intro tp visited acc hm h1 h2 h3 h4 h5 h6 h7
    cases tp with
    | nil =>
      refine ⟨acc, by simp [expandLoop], h5, ?_⟩
      intro p
      constructor
      · intro hp
        exact h3 p ((h4 p).mp hp)
      · intro hp
        have hclosed : ∀ v ∈ visited, ∀ c : Nat, (c, v) ∈ map → c ∈ visited := by
          intro v hv c hc
          rcases h6 v hv c hc with h | h
          · exact h
          · simp at h
        have hroot : root ∈ visited := by
          rcases h7 with h | h
          · exact h
          · simp at h
        exact (h4 p).mpr (reachable_mem_of_closed map root visited hroot hclosed p hp)
    | cons current rest =>
      by_cases hcv : current ∈ visited
      · have heq : expandLoop map (fuel + 1) (current :: rest) visited acc
            = expandLoop map fuel rest visited acc := by
          simp [expandLoop, hcv]
        rw [heq]
        apply ih rest visited acc
        · obtain ⟨Q, hQ⟩ : ∃ Q,
              (map.length + 1) * ((cand map root \ visited.toFinset).card) = Q :=
            ⟨_, rfl⟩
          simp only [meas, List.length_cons, hQ] at hm ⊢
          omega
        · intro p hp; exact h1 p (List.mem_cons_of_mem _ hp)
        · intro p hp; exact h2 p (List.mem_cons_of_mem _ hp)
        · exact h3
        · exact h4
        · exact h5
        · intro v hv c hc
          rcases h6 v hv c hc with h | h
          · exact Or.inl h
          · rcases List.mem_cons.mp h with h | h
            · exact Or.inl (h ▸ hcv)
            · exact Or.inr h
        · rcases h7 with h | h
          · exact Or.inl h
          · rcases List.mem_cons.mp h with h | h
            · exact Or.inl (h ▸ hcv)
            · exact Or.inr h
      · have heq : expandLoop map (fuel + 1) (current :: rest) visited acc
            = expandLoop map fuel
                ((pushList map current (current :: visited)).foldl
                  (fun s p => p :: s) rest)
                (current :: visited) (acc ++ [current]) := by
          simp [expandLoop, hcv]
        rw [heq]
        have hcur_reach : Reachable map root current :=
          h2 current (List.mem_cons_self _ _)
        apply ih
        · -- measure strictly decreases at a fresh visit
          have hccand : current ∈ cand map root := h1 current (List.mem_cons_self _ _)
          have hcd : current ∈ cand map root \ visited.toFinset := by
            rw [Finset.mem_sdiff]
            exact ⟨hccand, by simpa using hcv⟩
          have hsd : cand map root \ (current :: visited).toFinset
              = (cand map root \ visited.toFinset).erase current := by
            rw [List.toFinset_cons, Finset.sdiff_insert]
          have hcardpos : 0 < (cand map root \ visited.toFinset).card :=
            Finset.card_pos.mpr ⟨current, hcd⟩
          have hcard : (cand map root \ (current :: visited).toFinset).card
              = (cand map root \ visited.toFinset).card - 1 := by
            rw [hsd, Finset.card_erase_of_mem hcd]
          have hlen : ((pushList map current (current :: visited)).foldl
                (fun s p => p :: s) rest).length
              = (pushList map current (current :: visited)).length + rest.length :=
            length_foldl_cons _ _
          have hpl : (pushList map current (current :: visited)).length ≤ map.length :=
            pushList_length_le _ _ _
          obtain ⟨C, hC⟩ : ∃ C, (cand map root \ visited.toFinset).card = C := ⟨_, rfl⟩
          have hmul : (map.length + 1) * C
              = (map.length + 1) * (C - 1) + (map.length + 1) := by
            cases C with
            | zero => omega
            | succ n => simp [Nat.mul_succ]
          obtain ⟨Q, hQ⟩ : ∃ Q, (map.length + 1) * (C - 1) = Q := ⟨_, rfl⟩
          rw [hQ] at hmul
          simp only [meas, List.length_cons, hlen, hcard, hC, hQ, hmul] at hm ⊢
          omega
        · intro p hp
          rcases (mem_foldl_cons _ _ _).mp hp with h | h
          · rcases mem_pushList.mp h with ⟨hmem, _⟩
            exact Finset.mem_insert_of_mem
              (List.mem_toFinset.mpr (List.mem_map.mpr ⟨(p, current), hmem, rfl⟩))
          · exact h1 p (List.mem_cons_of_mem _ h)
        · intro p hp
          rcases (mem_foldl_cons _ _ _).mp hp with h | h
          · rcases mem_pushList.mp h with ⟨hmem, _⟩
            exact Reachable.step hcur_reach hmem
          · exact h2 p (List.mem_cons_of_mem _ h)
        · intro v hv
          rcases List.mem_cons.mp hv with h | h
          · exact h ▸ hcur_reach
          · exact h3 v h
        · intro x
          simp only [List.mem_append, List.mem_singleton, List.mem_cons, h4]
          tauto
        · have hnotacc : current ∉ acc := fun h => hcv ((h4 current).mp h)
          simp only [List.nodup_append, List.nodup_cons, List.nodup_nil,
            List.disjoint_singleton]
          exact ⟨h5, by simp, hnotacc⟩
        · intro v hv c hc
          rcases List.mem_cons.mp hv with h | h
          · subst h
            by_cases hcvis : c ∈ (v :: visited)
            · exact Or.inl hcvis
            · refine Or.inr ((mem_foldl_cons _ _ _).mpr (Or.inl ?_))
              exact mem_pushList.mpr ⟨hc, hcvis⟩
          · rcases h6 v h c hc with h2c | h2c
            · exact Or.inl (List.mem_cons_of_mem _ h2c)
            · rcases List.mem_cons.mp h2c with h3c | h3c
              · exact Or.inl (h3c ▸ List.mem_cons_self _ _)
              · exact Or.inr ((mem_foldl_cons _ _ _).mpr (Or.inr h3c))
        · rcases h7 with h | h
          · exact Or.inl (List.mem_cons_of_mem _ h)
          · rcases List.mem_cons.mp h with h | h
            · exact Or.inl (h ▸ List.mem_cons_self _ _)
            · exact Or.inr ((mem_foldl_cons _ _ _).mpr (Or.inr h))

/-- The fixed budget `expandFuel` always suffices: the traversal returns a
duplicate-free list containing exactly the reachable pids. -/
theorem expand_descendants_some (map : List (Nat × Nat)) (root : Nat) :
    ∃ res, expand_descendants map root = some res ∧ List.Nodup res ∧
      ∀ p : Nat, p ∈ res ↔ Reachable map root p := by
  apply expandLoop_master map root (expandFuel map) [root] [] []
  · have h1 : (cand map root).card ≤ map.length + 1 := by
      have ha : (cand map root).card ≤ (keysOf map).toFinset.card + 1 :=
        Finset.card_insert_le _ _
      have hb : (keysOf map).toFinset.card ≤ (keysOf map).length :=
        (keysOf map).toFinset_card_le
      have hc : (keysOf map).length = map.length := by simp [keysOf]
      omega
    have h2 : (map.length + 1) * (cand map root).card
        ≤ (map.length + 1) * (map.length + 1) :=
      Nat.mul_le_mul_left _ h1
    simp only [meas, List.toFinset_nil, Finset.sdiff_empty, List.length_singleton,
      expandFuel]
    obtain ⟨A, hA⟩ : ∃ A, (map.length + 1) * (cand map root).card = A := ⟨_, rfl⟩
    obtain ⟨B, hB⟩ : ∃ B, (map.length + 1) * (map.length + 1) = B := ⟨_, rfl⟩
    rw [hA, hB] at h2
    rw [hA, hB]
    omega
  · intro p hp
    simp only [List.mem_singleton] at hp
    subst hp
    exact Finset.mem_insert_self _ _
  · intro p hp
    simp only [List.mem_singleton] at hp
    subst hp
    exact Reachable.refl
  · intro v hv; simp at hv
  · intro x; simp
  · exact List.nodup_nil
  · intro v hv; simp at hv
  · exact Or.inr (List.mem_singleton.mpr rfl)

/-- When the parent map was built, `get_child_processes_recursive`
succeeds with the traversal's result. -/
theorem get_child_processes_ok (run : Except String CmdOutput) (pid : Nat)
    (m : List (Nat × Nat)) (h : get_process_parent_map run = .ok m) :
    ∃ res, get_child_processes_recursive run pid = .ok res ∧
      expand_descendants m pid = some res ∧ List.Nodup res ∧
      ∀ p : Nat, p ∈ res ↔ Reachable m pid p := by
  obtain ⟨res, hres, hnd, hmem⟩ := expand_descendants_some m pid
  refine ⟨res, ?_, hres, hnd, hmem⟩
  simp [get_child_processes_recursive, h, hres]

/-- C2: for every ParentMap and root, the descendant expansion returns
exactly the set of pids reachable from the root by zero or more
parent-to-child hops, and that set always contains the root itself, even
when the root has no entry in the map. -/
theorem expand_descendants_exactly_reachable (map : List (Nat × Nat)) (root : Nat) :
    ∃ res, expand_descendants map root = some res ∧ root ∈ res ∧
      ∀ p : Nat, p ∈ res ↔ Reachable map root p := by
  obtain ⟨res, h1, _, h3⟩ := expand_descendants_some map root
  exact ⟨res, h1, (h3 root).mpr Reachable.refl, h3⟩

/-- C3: for every ParentMap, including any map with a cycle reachable from
the root, the descendant expansion terminates within its iteration budget,
never appends the same pid twice, and returns a finite list containing the
root. -/
theorem expand_descendants_terminates_nodup (map : List (Nat × Nat)) (root : Nat) :
    ∃ res, expand_descendants map root = some res ∧ List.Nodup res ∧ root ∈ res := by
  obtain ⟨res, h1, h2, h3⟩ := expand_descendants_some map root
  exact ⟨res, h1, h2, (h3 root).mpr Reachable.refl⟩

/-- C8: on non-Windows platforms every public operation is a no-op
returning a neutral value: `kill_process_tree` gives `Ok false`,
`list_processes_by_name` gives `Ok []`, `is_process_elevated` gives
`Ok false`, for every input. -/
theorem nonwindows_neutral_noops (pid : Nat) (name : String) :
    nonwindows.kill_process_tree pid = Except.ok false ∧
    nonwindows.list_processes_by_name name = Except.ok [] ∧
    nonwindows.is_process_elevated pid = Except.ok false :=
  ⟨rfl, rfl, rfl⟩

/-- C5: per-pid termination policy of `kill_single_process`: a successful
graceful attempt returns `Ok true`; on graceful non-success the forced
attempt decides the outcome; a forced failure matching the not-found
signature is classified already-gone (`Ok false`); any other forced
failure is an error carrying the raw stderr text. -/
theorem kill_single_process_policy (w : SysWorld) (pid : Nat) :
    (∀ o : CmdOutput, w.graceful pid = Except.ok o → o.success = true →
      kill_single_process w pid = Except.ok true) ∧
    (∀ o o2 : CmdOutput, w.graceful pid = Except.ok o → o.success = false →
      w.forced pid = Except.ok o2 → o2.success = true →
      kill_single_process w pid = Except.ok true) ∧
    (∀ o o2 : CmdOutput, w.graceful pid = Except.ok o → o.success = false →
      w.forced pid = Except.ok o2 → o2.success = false →
      isNotFoundSig o2.stderr = true →
      kill_single_process w pid = Except.ok false) ∧
    (∀ o o2 : CmdOutput, w.graceful pid = Except.ok o → o.success = false →
      w.forced pid = Except.ok o2 → o2.success = false →
      isNotFoundSig o2.stderr = false →
      kill_single_process w pid =
        Except.error ( "Failed to terminate process " ++ Nat.repr pid ++ ": "
          ++ o2.stderr)) := by
  refine ⟨?_, ?_, ?_, ?_⟩
  · intro o h1 h2
    simp [kill_single_process, h1, h2]
  · intro o o2 h1 h2 h3 h4
    simp [kill_single_process, h1, h2, h3, h4]
  · intro o o2 h1 h2 h3 h4 h5
    simp [kill_single_process, h1, h2, h3, h4, h5]
  · intro o o2 h1 h2 h3 h4 h5
    simp [kill_single_process, h1, h2, h3, h4, h5]

/-- Witness for C5: a concrete world in which the graceful attempt fails
and the forced attempt reports a not-found stderr is classified `Ok false`. -/
theorem kill_single_process_policy_witness :
    kill_single_process
      ⟨Except.ok ⟨true, "", ""⟩,
       (fun _ => Except.ok ⟨false, "", ""⟩),
       (fun _ => Except.ok ⟨false, "", "ERROR: The process 5 not found."⟩)⟩ 5
      = Except.ok false :=
  (kill_single_process_policy _ 5).2.2.1 ⟨false, "", ""⟩
    ⟨false, "", "ERROR: The process 5 not found."⟩ rfl rfl rfl rfl (by decide)

/-- C6 counterexample: when the PowerShell command itself cannot be
spawned, `is_process_elevated` returns the propagated error, not
`Ok false`, refuting the claim that no query error ever reaches the
caller. -/
theorem is_process_elevated_spawn_error_propagates :
    is_process_elevated (Except.error "program not found") 7
      = Except.error ( "Failed to execute PowerShell command: program not found") ∧
    is_process_elevated (Except.error "program not found") 7 ≠ Except.ok false := by
  constructor
  · rfl
  · intro h
    simp [is_process_elevated] at h

/-- C6 (amended): whenever the PowerShell query command actually runs,
`is_process_elevated` never errors: a non-success exit yields `Ok false`,
and a run whose trimmed lowercased stdout is not the string true (for
example the catch branch printing False when the process exited
mid-query) also yields `Ok false`; only a spawn failure propagates. -/
theorem is_process_elevated_degrades_when_ran (run : Except String CmdOutput)
    (pid : Nat) (out : CmdOutput) (h : run = Except.ok out) :
    (∃ b : Bool, is_process_elevated run pid = Except.ok b) ∧
    (out.success = false → is_process_elevated run pid = Except.ok false) ∧
    (out.success = true →
      (trimChars out.stdout.data).map Char.toLower ≠ ( "true").data →
      is_process_elevated run pid = Except.ok false) := by
  subst h
  refine ⟨?_, ?_, ?_⟩
  · by_cases hs : out.success = true
    · exact ⟨(trimChars out.stdout.data).map Char.toLower == ( "true").data,
        by simp [is_process_elevated, hs]⟩
    · exact ⟨false, by simp [is_process_elevated, hs]⟩
  · intro hf
    simp [is_process_elevated, hf]
  · intro ht hne
    simp only [is_process_elevated, ht, if_true]
    have : ((trimChars out.stdout.data).map Char.toLower == ( "true").data) = false := by
      simpa using hne
    rw [this]

/-- Witness for the amended C6: a run that caught the mid-query exit and
printed False yields `Ok false`. -/
theorem is_process_elevated_degrades_witness :
    is_process_elevated (Except.ok ⟨true, "False", ""⟩) 9 = Except.ok false :=
  (is_process_elevated_degrades_when_ran (Except.ok ⟨true, "False", ""⟩) 9
    ⟨true, "False", ""⟩ rfl).2.2 rfl (by decide)

/-- C1: `kill_process_tree` returns `Ok true` exactly when the snapshot was
acquired and the root's own termination attempt succeeded, `Ok false`
exactly when the snapshot was acquired and the root was already gone at
the final termination attempt, and errors exactly when the snapshot could
not be acquired or the root's own attempt produced a non-already-gone
failure; descendant outcomes never influence the result. -/
theorem kill_process_tree_result_cases (w : SysWorld) (pid : Nat) :
    ((kill_process_tree w pid).1 = Except.ok true ↔
      (∃ m, get_process_parent_map w.wmic = Except.ok m) ∧
        kill_single_process w pid = Except.ok true) ∧
    ((kill_process_tree w pid).1 = Except.ok false ↔
      (∃ m, get_process_parent_map w.wmic = Except.ok m) ∧
        kill_single_process w pid = Except.ok false) ∧
    ((∃ e, (kill_process_tree w pid).1 = Except.error e) ↔
      ((∃ e, get_process_parent_map w.wmic = Except.error e) ∨
       (∃ e, kill_single_process w pid = Except.error e))) := by
  cases hpm : get_process_parent_map w.wmic with
  | error e =>
    have hkt : (kill_process_tree w pid).1
        = Except.error ( "Failed to get child processes: "
            ++ ( "Failed to get process parent relationships: " ++ e)) := by
      simp [kill_process_tree, get_child_processes_recursive, hpm]
    refine ⟨?_, ?_, ?_⟩
    · simp [hkt]
    · simp [hkt]
    · constructor
      · intro _; exact Or.inl ⟨e, rfl⟩
      · intro _; exact ⟨_, hkt⟩
  | ok m =>
    obtain ⟨res, hchild, _, _, _⟩ := get_child_processes_ok w.wmic pid m hpm
    have hkt : (kill_process_tree w pid).1
        = addContext ( "Failed to kill root process " ++ Nat.repr pid)
            (kill_single_process w pid) := by
      simp [kill_process_tree, hchild]
    cases hk : kill_single_process w pid with
    | ok b =>
      have hok : (kill_process_tree w pid).1 = Except.ok b := by
        rw [hkt, hk]; rfl
      refine ⟨?_, ?_, ?_⟩
      · cases b <;> simp [hok]
      · cases b <;> simp [hok]
      · simp [hok]
    | error e2 =>
      have herr : (kill_process_tree w pid).1
          = Except.error ( "Failed to kill root process " ++ Nat.repr pid
              ++ ": " ++ e2) := by
        rw [hkt, hk]; rfl
      refine ⟨?_, ?_, ?_⟩
      · simp [herr]
      · simp [herr]
      · simp [herr]

/-- C4: the trace of termination calls issued by one `kill_process_tree`
run consists of every non-root member of the discovered descendant set,
followed by the root as the final call: the root's termination is issued
only after every descendant's call has returned. -/
theorem kill_process_tree_children_before_root (w : SysWorld) (pid : Nat)
    (children : List Nat)
    (h : get_child_processes_recursive w.wmic pid = Except.ok children) :
    ∃ pre, (kill_process_tree w pid).2 = pre ++ [pid] ∧ pid ∉ pre ∧
      (∀ q ∈ pre, q ∈ children ∧ q ≠ pid) ∧
      (∀ q ∈ children, q ≠ pid → q ∈ pre) := by
  refine ⟨children.filter (fun c => c != pid), ?_, ?_, ?_, ?_⟩
  · simp [kill_process_tree, h]
  · intro hmem
    rcases List.mem_filter.mp hmem with ⟨_, hq⟩
    simp at hq
  · intro q hq
    rcases List.mem_filter.mp hq with ⟨h1, h2⟩
    exact ⟨h1, by simpa using h2⟩
  · intro q hq hne
    exact List.mem_filter.mpr ⟨hq, by simpa using hne⟩

/-- Witness for C4: a concrete snapshot with children 2 and 3 under root 1
and a grandchild 4 under 2 yields a call trace ending in the root. -/
theorem kill_process_tree_children_before_root_witness :
    ∃ pre, (kill_process_tree
        ⟨Except.ok ⟨true, "h1\nh2\nN,1,2\nN,1,3\nN,2,4\n", ""⟩,
         (fun _ => Except.ok ⟨true, "", ""⟩),
         (fun _ => Except.ok ⟨true, "", ""⟩)⟩ 1).2 = pre ++ [1] ∧ 1 ∉ pre ∧
      (∀ q ∈ pre, q ∈ [1, 3, 2, 4] ∧ q ≠ 1) ∧
      (∀ q ∈ [1, 3, 2, 4], q ≠ 1 → q ∈ pre) :=
  kill_process_tree_children_before_root _ 1 [1, 3, 2, 4] (by rfl)

/-- Provenance of parent-map entries: every entry produced by folding the
per-line parser over a list of lines is an initial entry or the parse of
one of the lines. -/
theorem foldl_parse_mem (lines : List (List Char)) :
    ∀ (m0 : List (Nat × Nat)) (e : Nat × Nat),
      e ∈ lines.foldl
        (fun m line =>
          match parseMapLine line with
          | some pr => hmInsert m pr.1 pr.2
          | none => m) m0 →
      e ∈ m0 ∨ ∃ l ∈ lines, parseMapLine l = some e := by
  induction lines with
  | nil =>
    intro m0 e he
    exact Or.inl (by simpa using he)
  | cons l ls ihl =>
    intro m0 e he
    simp only [List.foldl_cons] at he
    rcases ihl _ e he with h | h
    · cases hp : parseMapLine l with
      | none =>
        rw [hp] at h
        exact Or.inl h
      | some pr =>
        rw [hp] at h
        rcases mem_hmInsert h with h2 | h2
        · exact Or.inl h2
        · exact Or.inr ⟨l, List.mem_cons_self _ _, by simp [hp, h2]⟩
    · rcases h with ⟨l2, hl2, hpl2⟩
      exact Or.inr ⟨l2, List.mem_cons_of_mem _ hl2, hpl2⟩

/-- Every entry of the parsed parent map is the parse of some line after
the two skipped header lines. -/
theorem parseParentMap_mem (s : List Char) :
    ∀ e ∈ parseParentMap s, ∃ l ∈ (rustLinesL s).drop 2, parseMapLine l = some e := by
  intro e he
  rcases foldl_parse_mem _ [] e (by simpa [parseParentMap] using he) with h | h
  · simp at h
  · exact h

/-- A well-formed parent-map record always has a positive pid and a
positive parent pid. -/
theorem parseMapLine_pos {l : List Char} {pr : Nat × Nat}
    (h : parseMapLine l = some pr) : pr.1 ≠ 0 ∧ pr.2 ≠ 0 := by
  simp only [parseMapLine] at h
  split at h
  · split at h
    · split at h
      · rename_i hcond
        simp only [Bool.and_eq_true, decide_eq_true_eq] at hcond
        rcases Option.some.inj h with rfl
        exact ⟨by omega, by omega⟩
      · exact absurd h (by simp)
    · exact absurd h (by simp)
  · exact absurd h (by simp)

/-- C7: when the underlying enumeration command succeeds, malformed or
short records are silently skipped: a raw listing in which no line parses
to a pid makes `list_processes_by_name` return `Ok []` rather than an
error, and `get_process_parent_map` returns `Ok` with a map containing
only entries parsed from well-formed lines. -/
theorem malformed_records_skipped (out : CmdOutput) (hs : out.success = true) :
    ((∀ l ∈ rustLinesL out.stdout.data, parsePidLine l = none) →
      list_processes_by_name (Except.ok out) ( "nonexistent.exe") = Except.ok []) ∧
    (∃ m, get_process_parent_map (Except.ok out) = Except.ok m ∧
      ∀ e ∈ m, ∃ l ∈ (rustLinesL out.stdout.data).drop 2, parseMapLine l = some e) := by
  constructor
  · intro hall
    simp only [list_processes_by_name, hs, if_true, Except.ok.injEq]
    exact List.filterMap_eq_nil_iff.mpr hall
  · refine ⟨parseParentMap out.stdout.data, by simp [get_process_parent_map, hs], ?_⟩
    exact parseParentMap_mem out.stdout.data

/-- Witness for C7: the informational banner printed when no task matches
does not parse, so the result is the empty list, not an error. -/
theorem malformed_records_skipped_witness :
    list_processes_by_name (Except.ok ⟨true, "INFO: No tasks are running.\n", ""⟩)
      ( "nonexistent.exe") = Except.ok [] :=
  (malformed_records_skipped ⟨true, "INFO: No tasks are running.\n", ""⟩ rfl).1
    (by decide)

/-- C10: the parent map built from a successful snapshot never contains
the pid 0 on either side; records whose pid or parent pid is 0 or fails
to parse are excluded. -/
theorem parent_map_no_zero_pids (out : CmdOutput) (m : List (Nat × Nat))
    (hs : out.success = true)
    (hm : get_process_parent_map (Except.ok out) = Except.ok m) :
    ∀ pr ∈ m, pr.1 ≠ 0 ∧ pr.2 ≠ 0 := by
  intro pr hpr
  have hmm : m = parseParentMap out.stdout.data := by
    simp only [get_process_parent_map, hs, if_true, Except.ok.injEq] at hm
    exact hm.symm
  rw [hmm] at hpr
  rcases parseParentMap_mem _ pr hpr with ⟨l, _, hl⟩
  exact parseMapLine_pos hl

/-- Witness for C10: a listing with one well-formed record and two records
carrying a zero pid or zero parent produces a map whose single entry is
nonzero on both sides. -/
theorem parent_map_no_zero_pids_witness :
    ((7 : Nat), (5 : Nat)).1 ≠ 0 ∧ ((7 : Nat), (5 : Nat)).2 ≠ 0 :=
  parent_map_no_zero_pids ⟨true, "a\nb\nN,5,7\nN,0,9\nN,3,0\n", ""⟩ [(7, 5)] rfl
    (by rfl) (7, 5) (by decide)

/-- C9: when the system listing succeeds, `get_process_info` returns
exactly one `ProcessInfo` per requested pid, in input order, with the
record's pid equal to the requested pid; a pid absent from the listing is
not omitted and yields the placeholder name, and an erroring elevation
query defaults `is_elevated` to false. -/
theorem get_process_info_per_pid (w : InfoWorld) (pids : List Nat)
    (out : CmdOutput) (h1 : w.tasklist = Except.ok out) (h2 : out.success = true)
    (pm : List (Nat × Nat)) (h3 : get_process_parent_map w.wmic = Except.ok pm) :
    ∃ infos, get_process_info w pids = Except.ok infos ∧
      infos.length = pids.length ∧
      (∀ i : Nat, (infos.get? i).map ProcessInfo.pid = pids.get? i) ∧
      (∀ i : Nat, ∀ p : Nat, ∀ info : ProcessInfo,
        pids.get? i = some p → infos.get? i = some info →
        (hmGet (buildPidToName out.stdout.data pids) p = none →
          info.name = "PID-" ++ Nat.repr p) ∧
        ((∃ e, is_process_elevated (w.elev p) p = Except.error e) →
          info.is_elevated = false)) := by
  have heq : get_process_info w pids = Except.ok (pids.map (fun pid =>
      ({ pid := pid
         name := (hmGet (buildPidToName out.stdout.data pids) pid).getD
           ( "PID-" ++ Nat.repr pid)
         parent_pid := hmGet pm pid
         is_elevated :=
           match is_process_elevated (w.elev pid) pid with
           | .ok b => b
           | .error _ => false } : ProcessInfo))) := by
    simp [get_process_info, h1, h2, h3]
  refine ⟨_, heq, by simp, ?_, ?_⟩
  · intro i
    rw [List.get?_map]
    cases pids.get? i <;> simp
  · intro i p info hp hinfo
    rw [List.get?_map, hp] at hinfo
    simp only [Option.map_some'] at hinfo
    cases Option.some.inj hinfo
    constructor
    · intro hn
      simp [hn]
    · rintro ⟨e, he⟩
      simp [he]

/-- Witness for C9: a single requested pid absent from an empty listing,
with an erroring elevation query, still yields one record. -/
theorem get_process_info_per_pid_witness :
    ∃ infos, get_process_info
        ⟨Except.ok ⟨true, "", ""⟩, Except.ok ⟨true, "", ""⟩,
         (fun _ => Except.error "no powershell")⟩ [5] = Except.ok infos ∧
      infos.length = [5].length ∧
      (∀ i : Nat, (infos.get? i).map ProcessInfo.pid = [5].get? i) ∧
      (∀ i : Nat, ∀ p : Nat, ∀ info : ProcessInfo,
        [5].get? i = some p → infos.get? i = some info →
        (hmGet (buildPidToName ( "").data [5]) p = none →
          info.name = "PID-" ++ Nat.repr p) ∧
        ((∃ e, is_process_elevated (Except.error "no powershell") p = Except.error e) →
          info.is_elevated = false)) :=
  get_process_info_per_pid _ [5] ⟨true, "", ""⟩ rfl rfl [] (by rfl)
